import Mathlib

/-!
Verification of the reader repository's update pipeline against its
natural-language specification.

The development shallowly embeds the Python sources:

* reader/parser.py            (feed document parsing and entry construction)
* src/reader/_utils.py        (join_paginated_iter, make_pool_map)
* src/reader/_parser/file.py  (FileRetriever)
* src/reader/core/types.py    (data model: intents, snapshots)

External collaborators (feedparser, requests, urllib, the thread pool
executor, the storage engine) are modelled by passing their results as
arguments or, for the scheduler, as a nondeterministic completion oracle.
Definitions whose Python source is not part of the repository snapshot are
marked with a doc comment starting with "Modelled from the spec".
-/

namespace Reader

/-- Timestamps: datetime values are modelled as integers (seconds since the
epoch); the embedding only needs equality and order on them. -/
abbrev Time := Int

/-! ## Data model (reader/types.py is absent; core/types.py is in the source) -/

/-- Data type representing a piece of content (core/types.py: Content).
The value is required; type and language are optional. -/
structure Content where
  value : String
  type : Option String := none
  language : Option String := none
deriving Repr, DecidableEq

/-- Data type representing an external file (core/types.py: Enclosure).
The href is required; type and length are optional. -/
structure Enclosure where
  href : String
  type : Option String := none
  length : Option Int := none
deriving Repr, DecidableEq

/-- Modelled from the spec: the Feed record of the data model (the old module
reader/types.py that parser.py imports is not part of the source snapshot;
the field list follows the spec's data model and core/types.py). -/
structure Feed where
  url : String
  updated : Option Time := none
  title : Option String := none
  link : Option String := none
  author : Option String := none
  user_title : Option String := none
deriving Repr, DecidableEq

/-- Modelled from the spec: the Entry record of the data model (the old module
reader/types.py that parser.py imports is not part of the source snapshot).
Fields follow the positional construction order used by parser.py, with
updated kept nullable so that nullability of stored dates is expressible. -/
structure Entry where
  id : String
  updated : Option Time := none
  title : Option String := none
  link : Option String := none
  author : Option String := none
  published : Option Time := none
  summary : Option String := none
  content : Option (List Content) := none
  enclosures : Option (List Enclosure) := none
  read : Bool := false
  feed : Option Feed := none
deriving Repr, DecidableEq

/-! ## Feedparser result dictionaries

A feedparser entry/feed dictionary is modelled by its fields relevant to
parser.py.  For the two date keys, the outer Option models whether the key is
present in the dictionary at all, and the inner Option models the truthiness
of the stored time tuple (feedparser stores None for unparsable dates). -/

/-- Date-carrying part of a feedparser dictionary, as read by
_get_updated_published. -/
structure FPThing where
  updated_parsed : Option (Option Time) := none
  published_parsed : Option (Option Time) := none
deriving Repr, DecidableEq

/-- Embedding of _datetime_from_timetuple (parser.py): None for a falsy time
tuple, otherwise the corresponding UTC datetime; on the abstraction of times
as integers the conversion is the identity. -/
def _datetime_from_timetuple (tt : Option Time) : Option Time :=
  tt

/-- Value of the two statements
if key_parsed in thing then x := _datetime_from_timetuple thing.key_parsed
starting from x = None. -/
def rawDate : Option (Option Time) → Option Time
  | some tt => _datetime_from_timetuple tt
  | none => none

/-- Embedding of _get_updated_published (parser.py): read the two parsed
dates; under an RSS-family document an entry with only published gets it
promoted to updated, with published cleared. -/
def _get_updated_published (thing : FPThing) (is_rss : Bool) :
    Option Time × Option Time :=
  let updated := rawDate thing.updated_parsed
  let published := rawDate thing.published_parsed
  if published.isSome && !updated.isSome && is_rss then
    (published, none)
  else
    (updated, published)

/-- Raw content dictionary of a feedparser entry, already restricted to the
keys value/type/language kept by _make_entry. -/
structure RawContent where
  value : Option String := none
  type : Option String := none
  language : Option String := none
deriving Repr, DecidableEq

/-- Raw enclosure dictionary of a feedparser entry, restricted to the keys
href/type/length kept by _make_entry.  The outer Option on length models key
presence; the inner Option models the value being None rather than a string. -/
structure RawEnclosure where
  href : Option String := none
  type : Option String := none
  length : Option (Option String) := none
deriving Repr, DecidableEq

/-- Feedparser entry dictionary, as read by _make_entry. -/
structure FPEntry where
  id : String
  updated_parsed : Option (Option Time) := none
  published_parsed : Option (Option Time) := none
  title : Option String := none
  link : Option String := none
  author : Option String := none
  summary : Option String := none
  content : List RawContent := []
  enclosures : List RawEnclosure := []
deriving Repr, DecidableEq

/-- Date-carrying view of a feedparser entry dictionary. -/
def FPEntry.thing (e : FPEntry) : FPThing :=
  ⟨e.updated_parsed, e.published_parsed⟩

/-- Whitespace characters stripped by Python int() around a numeric string. -/
def isPySpace (c : Char) : Bool :=
  c = ' ' || c = '\t' || c = '\n' || c = '\r'

/-- Digit run accumulator for pyIntOfString; a single underscore is allowed
between two digits (Python numeric literal grammar). -/
def digitsGo : Nat → List Char → Option Nat
  | acc, [] => some acc
  | acc, c :: rest =>
    if c.isDigit then digitsGo (acc * 10 + (c.toNat - 48)) rest
    else if c = '_' then
      match rest with
      | d :: rest2 =>
        if d.isDigit then digitsGo (acc * 10 + (d.toNat - 48)) rest2 else none
      | [] => none
    else none

/-- Value of a nonempty digit run (with optional single underscores between
digits), or none. -/
def digitsVal : List Char → Option Nat
  | [] => none
  | c :: rest => if c.isDigit then digitsGo (c.toNat - 48) rest else none

/-- Coercion a la Python int() applied to a string: optional surrounding
whitespace, an optional sign, then a nonempty digit run.  Returns none
exactly when the Python call would raise ValueError. -/
def pyIntOfString (s : String) : Option Int :=
  let chars :=
    ((s.toList.dropWhile isPySpace).reverse.dropWhile isPySpace).reverse
  match chars with
  | [] => none
  | c :: rest =>
    let signAndDigits : Int × List Char :=
      if c = '+' then (1, rest)
      else if c = '-' then (-1, rest)
      else (1, c :: rest)
    match digitsVal signAndDigits.2 with
    | some n => some (signAndDigits.1 * (n : Int))
    | none => none

/-- Coercion of the raw length value by int(): int(None) raises TypeError
and a non-numeric string raises ValueError; both make _make_entry delete the
length key.  none here means the length key ends up deleted. -/
def coerceLength : Option String → Option Int
  | none => none
  | some s => pyIntOfString s

/-- Failures with which _make_entry can raise instead of returning an entry:
the two assert statements, and the TypeError raised by constructing a Content
or Enclosure whose required field is missing from the dictionary. -/
inductive EntryError
  | idFalsy
  | updatedMissing
  | contentValueMissing
  | enclosureHrefMissing
deriving Repr, DecidableEq

/-- Body of the content loop of _make_entry: keep value/type/language and
construct a Content; a missing value raises TypeError. -/
def makeContent (d : RawContent) : Except EntryError Content :=
  match d.value with
  | some v => .ok ⟨v, d.type, d.language⟩
  | none => .error .contentValueMissing

/-- Body of the enclosures loop of _make_entry: try to coerce length to int,
deleting the key on TypeError/ValueError, then construct an Enclosure; a
missing href raises TypeError. -/
def makeEnclosure (d : RawEnclosure) : Except EntryError Enclosure :=
  let len : Option Int :=
    match d.length with
    | none => none
    | some v => coerceLength v
  match d.href with
  | some h => .ok ⟨h, d.type, len⟩
  | none => .error .enclosureHrefMissing

/-- Accumulating loop over a list whose body may raise: the first raised
exception propagates, otherwise the results are collected in order, as in the
content/enclosures for-loops of _make_entry. -/
def mapExcept (f : α → Except ε β) : List α → Except ε (List β)
  | [] => .ok []
  | x :: xs =>
    match f x with
    | .error e => .error e
    | .ok y =>
      match mapExcept f xs with
      | .error e => .error e
      | .ok ys => .ok (y :: ys)

/-- Embedding of _make_entry (parser.py): assert a truthy id, resolve
updated/published via _get_updated_published, assert a non-null updated,
process content and enclosures field by field, and build the Entry.  The
empty content/enclosures tuples are turned into None. -/
def _make_entry (entry : FPEntry) (is_rss : Bool) : Except EntryError Entry :=
  if entry.id = "" then .error .idFalsy
  else
    let up := _get_updated_published entry.thing is_rss
    match up.1 with
    | none => .error .updatedMissing
    | some u =>
      match mapExcept makeContent entry.content with
      | .error e => .error e
      | .ok content =>
        match mapExcept makeEnclosure entry.enclosures with
        | .error e => .error e
        | .ok enclosures =>
          .ok { id := entry.id
                updated := some u
                title := entry.title
                link := entry.link
                author := entry.author
                published := up.2
                summary := entry.summary
                content := if content.isEmpty then none else some content
                enclosures :=
                  if enclosures.isEmpty then none else some enclosures
                read := false
                feed := none }

/-! ## Document-level parsing (parser.py) -/

/-- Feed-level feedparser dictionary (d.feed), as read by _process_feed. -/
structure FPFeedDict where
  updated_parsed : Option (Option Time) := none
  published_parsed : Option (Option Time) := none
  title : Option String := none
  link : Option String := none
  author : Option String := none
deriving Repr, DecidableEq

/-- Date-carrying view of a feed-level feedparser dictionary. -/
def FPFeedDict.thing (f : FPFeedDict) : FPThing :=
  ⟨f.updated_parsed, f.published_parsed⟩

/-- Result dictionary of a feedparser.parse call, restricted to the keys
parser.py reads.  bozo_encoding_override records whether the stored
bozo_exception is a CharacterEncodingOverride (logged, not raised). -/
structure FPResult where
  status : Option Int := none
  etag : Option String := none
  modified : Option String := none
  bozo : Bool := false
  bozo_encoding_override : Bool := false
  version : String := ""
  feed : FPFeedDict := {}
  entries : List FPEntry := []
deriving Repr, DecidableEq

/-- Exceptions raised by the parse functions of parser.py.  assertionFailed
stands for the AssertionError of the bare-URL asserts in parse_requests. -/
inductive ParseExc
  | notModified (url : String)
  | parseError (url : String)
  | assertionFailed
deriving Repr, DecidableEq

instance {ε α : Type _} [DecidableEq ε] [DecidableEq α] :
    DecidableEq (Except ε α) := fun a b =>
  match a, b with
  | .error e, .error f => decidable_of_iff (e = f) (by simp)
  | .ok x, .ok y => decidable_of_iff (x = y) (by simp)
  | .error _, .ok _ => .isFalse (by simp)
  | .ok _, .error _ => .isFalse (by simp)

/-- Parsed document as returned by the parse functions: the feed, the lazy
sequence of entry constructions (each element is the outcome of forcing
_make_entry on one entry dictionary), and the caching tokens. -/
structure ParsedDoc where
  feed : Feed
  entries : List (Except EntryError Entry)
  http_etag : Option String := none
  http_last_modified : Option String := none
deriving Repr, DecidableEq

/-- Embedding of _process_feed (parser.py): raise ParseError on a fatal bozo
exception, detect the RSS family from the version, build the Feed, and set up
the lazy generator of entry constructions. -/
def _process_feed (url : String) (d : FPResult) :
    Except ParseExc (Feed × List (Except EntryError Entry)) :=
  if d.bozo && !d.bozo_encoding_override then .error (.parseError url)
  else
    let is_rss := d.version.startsWith "rss"
    let updated := (_get_updated_published d.feed.thing is_rss).1
    let feed : Feed :=
      ⟨url, updated, d.feed.title, d.feed.link, d.feed.author, none⟩
    .ok (feed, d.entries.map (fun e => _make_entry e is_rss))

/-- Embedding of parse_feedparser (parser.py).  The external feedparser.parse
call is modelled by passing its result d as an argument; the function raises
NotModified on HTTP status 304 before any feed processing. -/
def parse_feedparser (url : String) (d : FPResult)
    (http_etag http_last_modified : Option String) :
    Except ParseExc ParsedDoc :=
  if d.status = some 304 then .error (.notModified url)
  else
    let http_etag := match d.etag with
      | some e => some e
      | none => http_etag
    let http_last_modified := match d.modified with
      | some m => some m
      | none => http_last_modified
    match _process_feed url d with
    | .error e => .error e
    | .ok fe => .ok ⟨fe.1, fe.2, http_etag, http_last_modified⟩

/-- Result of urllib.parse.urlparse on the feed URL (external). -/
structure UrlSplit where
  scheme : String := ""
  netloc : String := ""
  params : String := ""
  query : String := ""
  fragment : String := ""
  path : String := ""
deriving Repr, DecidableEq

/-- Relevant part of a requests.Response (external). -/
structure HttpResponse where
  status_code : Int
  etagHeader : Option String := none
  lastModifiedHeader : Option String := none
deriving Repr, DecidableEq

/-- Embedding of parse_requests (parser.py).  External collaborators are
modelled as arguments: url_split is urlparse(url), get_result is the outcome
of requests.get (error = any exception it raised), snippet_result is the
dictionary after _feedparser_parse_snippet filled it from the response body,
and d_file is the feedparser.parse result used when the non-HTTP branch
delegates to parse_feedparser.  The HTTP branch raises NotModified on a 304
status code before the body is parsed. -/
def parse_requests (url : String) (url_split : UrlSplit)
    (http_etag http_last_modified : Option String)
    (get_result : Except String HttpResponse)
    (snippet_result : FPResult)
    (d_file : FPResult) : Except ParseExc ParsedDoc :=
  if url_split.scheme ≠ "http" && url_split.scheme ≠ "https" then
    if
        url_split.netloc ≠ "" || url_split.params ≠ "" ||
        url_split.query ≠ "" || url_split.fragment ≠ "" then
      .error .assertionFailed
    else
      let url2 :=
        if url_split.scheme = "file" then url_split.path
        else
          url_split.scheme ++ (if url_split.scheme ≠ "" then ":" else "") ++
            url_split.path
      parse_feedparser url2 d_file http_etag http_last_modified
  else
    match get_result with
    | .error _ => .error (.parseError url)
    | .ok response =>
      if response.status_code = 304 then .error (.notModified url)
      else
        let http_etag := match response.etagHeader with
          | some e => some e
          | none => http_etag
        let http_last_modified := match response.lastModifiedHeader with
          | some m => some m
          | none => http_last_modified
        match _process_feed url snippet_result with
        | .error e => .error e
        | .ok fe => .ok ⟨fe.1, fe.2, http_etag, http_last_modified⟩

/-! ## Lemmas about the entry-construction loops -/

theorem mapExcept_isOk {f : α → Except ε β} :
    ∀ {xs : List α}, (∀ x ∈ xs, (f x).isOk) → (mapExcept f xs).isOk := by
  intro xs
  induction xs with
  | nil => intro _; rfl
  | cons x xs ih =>
    intro h
    have hx : (f x).isOk := h x (List.mem_cons_self x xs)
    have hxs : (mapExcept f xs).isOk := ih fun y hy => h y (List.mem_cons_of_mem x hy)
    cases hfx : f x with
    | error e => rw [hfx] at hx; exact absurd hx (by simp [Except.isOk, Except.toBool])
    | ok y =>
      cases hm : mapExcept f xs with
      | error e =>
        rw [hm] at hxs; exact absurd hxs (by simp [Except.isOk, Except.toBool])
      | ok ys => simp [mapExcept, hfx, hm, Except.isOk, Except.toBool]

theorem mapExcept_mem {f : α → Except ε β} :
    ∀ {xs : List α} {ys : List β}, mapExcept f xs = .ok ys →
      ∀ {x y}, x ∈ xs → f x = .ok y → y ∈ ys := by
  intro xs
  induction xs with
  | nil => intro ys _ x y hx; exact absurd hx (List.not_mem_nil x)
  | cons a xs ih =>
    intro ys hok x y hx hf
    cases hfa : f a with
    | error e => simp [mapExcept, hfa] at hok
    | ok b =>
      cases hm : mapExcept f xs with
      | error e => simp [mapExcept, hfa, hm] at hok
      | ok bs =>
        simp only [mapExcept, hfa, hm] at hok
        injection hok with hok
        subst hok
        rcases List.mem_cons.mp hx with rfl | hx2
        · rw [hf] at hfa; injection hfa with hfa; exact hfa ▸ List.mem_cons_self b bs
        · exact List.mem_cons_of_mem b (ih hm hx2 hf)

/-! ## Claim C1: RSS date promotion and the resolution of updated -/

/-- Claim C1, counterexample.  An entry that still lacks an updated date
after the RSS promotion (here: an RSS entry with neither date) is not
assigned the batch start time: entry construction takes no batch-start input
at all and fails the assert instead, so no entry is returned for it. -/
theorem C1_no_batch_start_counterexample :
    _make_entry { id := "entry-1" } true =
      Except.error EntryError.updatedMissing := by
  rfl

/-- Claim C1 (amended).  Under an RSS-family document, an entry with a
published date and no updated date is constructed with updated equal to the
original published value and published cleared to None; an entry still
lacking an updated date after this promotion fails construction with an
assertion error rather than being assigned the batch start time; and every
entry construction that returns does return a non-null updated. -/
theorem C1_rss_date_promotion :
    (∀ (e : FPEntry) (p : Time) (ent : Entry),
        rawDate e.published_parsed = some p →
        rawDate e.updated_parsed = none →
        _make_entry e true = .ok ent →
        ent.updated = some p ∧ ent.published = none) ∧
    (∀ (e : FPEntry) (r : Bool),
        e.id ≠ "" →
        (_get_updated_published e.thing r).1 = none →
        _make_entry e r = .error .updatedMissing) ∧
    (∀ (e : FPEntry) (r : Bool) (ent : Entry),
        _make_entry e r = .ok ent → ent.updated.isSome) := by
  refine ⟨?_, ?_, ?_⟩
  · intro e p ent hp hu hok
    have hgup : _get_updated_published e.thing true = (some p, none) := by
      simp [_get_updated_published, FPEntry.thing, hp, hu]
    unfold _make_entry at hok
    rw [hgup] at hok
    by_cases hid : e.id = "" <;> simp only [hid, if_true, if_false] at hok
    · exact absurd hok (by simp)
    · cases hc : mapExcept makeContent e.content with
      | error er => rw [hc] at hok; exact absurd hok (by simp)
      | ok content =>
        cases he : mapExcept makeEnclosure e.enclosures with
        | error er => rw [hc, he] at hok; exact absurd hok (by simp)
        | ok enclosures =>
          rw [hc, he] at hok
          injection hok with hok
          subst hok
          exact ⟨rfl, rfl⟩
  · intro e r hid hu
    simp [_make_entry, hid, hu]
  · intro e r ent hok
    unfold _make_entry at hok
    by_cases hid : e.id = "" <;> simp only [hid, if_true, if_false] at hok
    · exact absurd hok (by simp)
    · cases hu : (_get_updated_published e.thing r).1 with
      | none => rw [hu] at hok; exact absurd hok (by simp)
      | some u =>
        rw [hu] at hok
        cases hc : mapExcept makeContent e.content with
        | error er => rw [hc] at hok; exact absurd hok (by simp)
        | ok content =>
          cases he : mapExcept makeEnclosure e.enclosures with
          | error er => rw [hc, he] at hok; exact absurd hok (by simp)
          | ok enclosures =>
            rw [hc, he] at hok
            injection hok with hok
            subst hok
            rfl

/-- Claim C1, witness: the amended theorem applied to an RSS entry carrying
only a published date, to an RSS entry with no dates, and to a successful
construction. -/
theorem C1_rss_date_promotion_witness :
    (({ id := "e", published_parsed := some (some 7) } : FPEntry).id ≠ "" ∧
      ∃ ent, _make_entry { id := "e", published_parsed := some (some 7) } true = .ok ent ∧
        ent.updated = some 7 ∧ ent.published = none) ∧
    _make_entry { id := "e" } false = .error .updatedMissing := by
  constructor
  · refine ⟨by decide, { id := "e", updated := some 7 }, by rfl, ?_⟩
    exact C1_rss_date_promotion.1 { id := "e", published_parsed := some (some 7) }
      7 { id := "e", updated := some 7 } rfl rfl rfl
  · exact C1_rss_date_promotion.2.1 { id := "e" } false (by decide) rfl

/-! ## Claim C8: 304 short-circuit raises NotModified -/

/-- Claim C8.  Whenever the remote reports HTTP status 304, both parse
functions raise NotModified instead of returning a document: parse_feedparser
checks the status of the feedparser result before any feed processing, and
parse_requests checks the response status before the body is handed to the
normalizing snippet, so no entry is processed. -/
theorem C8_not_modified_raises :
    (∀ (url : String) (d : FPResult) (et lm : Option String),
        d.status = some 304 →
        parse_feedparser url d et lm = .error (.notModified url)) ∧
    (∀ (url : String) (sp : UrlSplit) (et lm : Option String)
        (resp : HttpResponse) (sr df : FPResult),
        (sp.scheme = "http" ∨ sp.scheme = "https") →
        resp.status_code = 304 →
        parse_requests url sp et lm (.ok resp) sr df =
          .error (.notModified url)) := by
  constructor
  · intro url d et lm h
    simp [parse_feedparser, h]
  · intro url sp et lm resp sr df hs hstat
    rcases hs with h | h <;> simp [parse_requests, h, hstat]

/-- Claim C8, witness: both parse functions at concrete 304 inputs. -/
theorem C8_not_modified_raises_witness :
    parse_feedparser "u" { status := some 304 } none none =
        .error (.notModified "u") ∧
    parse_requests "u" { scheme := "http" } none none
        (.ok { status_code := 304 }) {} {} = .error (.notModified "u") :=
  ⟨C8_not_modified_raises.1 "u" { status := some 304 } none none rfl,
    C8_not_modified_raises.2 "u" { scheme := "http" } none none
      { status_code := 304 } {} {} (Or.inl rfl) rfl⟩

/-! ## Claim C9: unparsable enclosure length is dropped field by field -/

/-- Claim C9.  An enclosure whose length cannot be coerced to an integer
loses only the length field: the enclosure keeps its href and type, entry
construction does not raise because of it, and an entry whose other required
fields are in order is still produced with that enclosure present. -/
theorem C9_enclosure_length_dropped :
    (∀ (d : RawEnclosure) (h : String) (v : Option String),
        d.href = some h → d.length = some v → coerceLength v = none →
        makeEnclosure d = .ok ⟨h, d.type, none⟩) ∧
    (∀ (e : FPEntry) (r : Bool) (u : Time),
        e.id ≠ "" →
        (_get_updated_published e.thing r).1 = some u →
        (∀ c ∈ e.content, c.value.isSome) →
        (∀ d ∈ e.enclosures, d.href.isSome) →
        (_make_entry e r).isOk) ∧
    (∀ (e : FPEntry) (r : Bool) (ent : Entry)
        (d : RawEnclosure) (h : String) (v : Option String),
        _make_entry e r = .ok ent → d ∈ e.enclosures →
        d.href = some h → d.length = some v → coerceLength v = none →
        Enclosure.mk h d.type none ∈ ent.enclosures.getD []) := by
  refine ⟨?_, ?_, ?_⟩
  · intro d h v hh hl hc
    simp [makeEnclosure, hh, hl, hc]
  · intro e r u hid hu hcont hencl
    have hc : (mapExcept makeContent e.content).isOk :=
      mapExcept_isOk fun c hc => by
        rcases Option.isSome_iff_exists.mp (hcont c hc) with ⟨v, hv⟩
        simp [makeContent, hv, Except.isOk, Except.toBool]
    have he : (mapExcept makeEnclosure e.enclosures).isOk :=
      mapExcept_isOk fun d hd => by
        rcases Option.isSome_iff_exists.mp (hencl d hd) with ⟨h, hh⟩
        simp [makeEnclosure, hh, Except.isOk, Except.toBool]
    cases hcv : mapExcept makeContent e.content with
    | error er =>
      rw [hcv] at hc; exact absurd hc (by simp [Except.isOk, Except.toBool])
    | ok content =>
      cases hev : mapExcept makeEnclosure e.enclosures with
      | error er =>
        rw [hev] at he; exact absurd he (by simp [Except.isOk, Except.toBool])
      | ok enclosures =>
        simp [_make_entry, hid, hu, hcv, hev, Except.isOk, Except.toBool]
  · intro e r ent d h v hok hd hh hl hc
    have hmk : makeEnclosure d = .ok ⟨h, d.type, none⟩ := by
      simp [makeEnclosure, hh, hl, hc]
    unfold _make_entry at hok
    by_cases hid : e.id = "" <;> simp only [hid, if_true, if_false] at hok
    · exact absurd hok (by simp)
    · cases hu : (_get_updated_published e.thing r).1 with
      | none => rw [hu] at hok; exact absurd hok (by simp)
      | some u =>
        rw [hu] at hok
        cases hcv : mapExcept makeContent e.content with
        | error er => rw [hcv] at hok; exact absurd hok (by simp)
        | ok content =>
          cases hev : mapExcept makeEnclosure e.enclosures with
          | error er => rw [hcv, hev] at hok; exact absurd hok (by simp)
          | ok enclosures =>
            rw [hcv, hev] at hok
            injection hok with hok
            subst hok
            have hmem : Enclosure.mk h d.type none ∈ enclosures :=
              mapExcept_mem hev hd hmk
            have hne : enclosures.isEmpty = false := by
              cases enclosures with
              | nil => exact absurd hmem (List.not_mem_nil _)
              | cons a l => rfl
            simp only [hne]
            simpa using hmem

/-- Raw enclosure with a non-numeric length string, used by the C9 witness. -/
def witEnclosureRaw : RawEnclosure :=
  ⟨some "http://x/f.mp3", some "audio/mpeg", some (some "not-a-number")⟩

/-- Feedparser entry carrying witEnclosureRaw, used by the C9 witness. -/
def witEntryRaw : FPEntry :=
  { id := "e", updated_parsed := some (some 3),
    enclosures := [witEnclosureRaw] }

/-- Entry produced from witEntryRaw, used by the C9 witness. -/
def witEntryOut : Entry :=
  { id := "e", updated := some 3,
    enclosures := some [⟨"http://x/f.mp3", some "audio/mpeg", none⟩] }

/-- Claim C9, witness: an enclosure with href, type and a non-numeric length
string keeps href/type, loses length, and the entry is still produced with
it. -/
theorem C9_enclosure_length_dropped_witness :
    makeEnclosure witEnclosureRaw =
      .ok ⟨"http://x/f.mp3", some "audio/mpeg", none⟩ ∧
    (_make_entry witEntryRaw false).isOk ∧
    Enclosure.mk "http://x/f.mp3" (some "audio/mpeg") none ∈
      witEntryOut.enclosures.getD [] := by
  refine ⟨?_, ?_, ?_⟩
  · exact C9_enclosure_length_dropped.1 witEnclosureRaw "http://x/f.mp3"
      (some "not-a-number") rfl rfl (by decide)
  · exact C9_enclosure_length_dropped.2.1 witEntryRaw false 3 (by decide) rfl
      (by intro c hc; exact absurd hc (List.not_mem_nil c))
      (by intro d hd; rw [List.mem_singleton.mp hd]; rfl)
  · exact C9_enclosure_length_dropped.2.2 witEntryRaw false witEntryOut
      witEnclosureRaw "http://x/f.mp3" (some "not-a-number")
      (by decide) (List.mem_singleton.mpr rfl) rfl rfl (by decide)

/-! ## FileRetriever (src/reader/_parser/file.py) -/

/-- Computable prefix test on strings (the library startsWith does not
reduce in the kernel). -/
def strStartsWith (s pre : String) : Bool :=
  pre.toList.isPrefixOf s.toList

/-- Computable drop of the first n characters of a string. -/
def strDrop (s : String) (n : Nat) : String :=
  ⟨s.toList.drop n⟩

/-- Grouping of a character list at a separator character; every separator
occurrence ends the current group. -/
def splitChar (c : Char) : List Char → List (List Char)
  | [] => [[]]
  | x :: xs =>
    if x = c then [] :: splitChar c xs
    else
      match splitChar c xs with
      | [] => [[x]]
      | g :: gs => (x :: g) :: gs

/-- Segments of a POSIX path string, split on the slash character. -/
def pathSegments (p : String) : List String :=
  (splitChar '/' p.toList).map (fun g => ⟨g⟩)

/-- Depth walk over relative path segments: true when some dot-dot segment
climbs above the starting directory, i.e. the path escapes it. -/
def climbsOut : List String → Nat → Bool
  | [], _ => false
  | s :: rest, d =>
    if s = ".." then (if d = 0 then true else climbsOut rest (d - 1))
    else if s = "." || s = "" then climbsOut rest d
    else climbsOut rest (d + 1)

/-- Modelled from the spec: _url_utils.extract_path is not part of the
source snapshot.  The retriever handles bare paths and file:// URIs, so the
scheme prefix of a file URI is stripped and any other URL already is the
path. -/
def extract_path (url : String) : String :=
  if strStartsWith url "file://" then strDrop url 7 else url

/-- Modelled from the spec: _url_utils.resolve_root is not part of the
source snapshot.  The spec requires paths that escape the configured root
directory to be rejected as errors rather than silently adjusted, so an
absolute path and a relative path whose dot-dot segments climb out of the
root raise ValueError, and a contained path resolves below the root. -/
def resolve_root (root p : String) : Except String String :=
  if strStartsWith p "/" then .error "path must be relative to the root"
  else if climbsOut (pathSegments p) 0 then
    .error "path cannot be outside the root"
  else .ok (root ++ "/" ++ p)

/-- Modelled from the spec: pathlib.PurePath.is_reserved flags OS-reserved
path names (the Windows device names); the exact name list is external, only
membership in a fixed list matters here. -/
def reservedNames : List String :=
  ["CON", "PRN", "AUX", "NUL"]

/-- Whether some segment of the path is an OS-reserved name. -/
def isReservedPath (p : String) : Bool :=
  (pathSegments p).any (fun s => reservedNames.contains s)

/-- Embedding of the FileRetriever dataclass (file.py): its only field is
the configured root directory, the empty string disabling containment. -/
structure FileRetriever where
  feed_root : String
deriving Repr, DecidableEq

/-- Embedding of FileRetriever._normalize_url (file.py): extract the path
from the URL; only when a feed root is configured, resolve the path against
the root (rejecting escapes) and reject OS-reserved names; otherwise return
the extracted path unchanged. -/
def FileRetriever._normalize_url (r : FileRetriever) (url : String) :
    Except String String :=
  let path := extract_path url
  if r.feed_root ≠ "" then
    match resolve_root r.feed_root path with
    | .error e => .error e
    | .ok p =>
      if isReservedPath p then .error "path must not be reserved"
      else .ok p
  else .ok path

/-- Errors of FileRetriever.__call__: ValueError from normalization is
re-raised as ParseError with the ValueError text as message, and failures of
the actual file read are wrapped by wrap_exceptions. -/
inductive RetrieveErr
  | parseError (url : String) (message : String)
  | ioError (url : String)
deriving Repr, DecidableEq

/-- Successful retrieval result (the open file handle). -/
structure RetrieveResult (α : Type) where
  resource : α
deriving Repr, DecidableEq

/-- Embedding of FileRetriever.__call__ (file.py): normalize the URL first,
turning a ValueError into a ParseError without touching the filesystem, and
only then open the normalized path.  The external filesystem is modelled by
the openFile argument. -/
def FileRetriever.call (r : FileRetriever) (url : String)
    (openFile : String → Except String α) :
    Except RetrieveErr (RetrieveResult α) :=
  match r._normalize_url url with
  | .error e => .error (.parseError url e)
  | .ok path =>
    match openFile path with
    | .error _ => .error (.ioError url)
    | .ok f => .ok ⟨f⟩

/-! ## Claim C4: path containment with a configured root -/

/-- Claim C4.  With a configured feed root, a URL whose extracted path is
absolute or climbs out of the root, and a URL resolving to an OS-reserved
path, are rejected as a retrieval (parse) error; the rejection happens for
every possible filesystem, i.e. before any file is opened, and is never a
silent fallback. -/
theorem C4_path_containment :
    (∀ (r : FileRetriever) (url : String), r.feed_root ≠ "" →
        (strStartsWith (extract_path url) "/" = true ∨
          climbsOut (pathSegments (extract_path url)) 0 = true) →
        ∃ msg, ∀ (α : Type) (openFile : String → Except String α),
          r.call url openFile = .error (.parseError url msg)) ∧
    (∀ (r : FileRetriever) (url p : String), r.feed_root ≠ "" →
        resolve_root r.feed_root (extract_path url) = .ok p →
        isReservedPath p = true →
        ∃ msg, ∀ (α : Type) (openFile : String → Except String α),
          r.call url openFile = .error (.parseError url msg)) := by
  constructor
  · intro r url hroot hesc
    have hres : ∃ msg,
        resolve_root r.feed_root (extract_path url) = .error msg := by
      rcases hesc with habs | hclimb
      · exact ⟨"path must be relative to the root", by simp [resolve_root, habs]⟩
      · by_cases habs : strStartsWith (extract_path url) "/"
        · exact ⟨"path must be relative to the root", by simp [resolve_root, habs]⟩
        · exact ⟨"path cannot be outside the root",
            by simp [resolve_root, habs, hclimb]⟩
    rcases hres with ⟨msg, hres⟩
    refine ⟨msg, fun α openFile => ?_⟩
    simp [FileRetriever.call, FileRetriever._normalize_url, hroot, hres]
  · intro r url p hroot hres hrsv
    refine ⟨"path must not be reserved", fun α openFile => ?_⟩
    simp [FileRetriever.call, FileRetriever._normalize_url, hroot, hres, hrsv]

/-- Claim C4, witness: under root /data/feeds, the URL file:///etc/passwd,
the relative path ../../etc/passwd, and a path naming the reserved NUL
device are all rejected without the filesystem being consulted. -/
theorem C4_path_containment_witness :
    (∃ msg, ∀ (α : Type) (openFile : String → Except String α),
        (FileRetriever.mk "/data/feeds").call "file:///etc/passwd" openFile =
          .error (.parseError "file:///etc/passwd" msg)) ∧
    (∃ msg, ∀ (α : Type) (openFile : String → Except String α),
        (FileRetriever.mk "/data/feeds").call "../../etc/passwd" openFile =
          .error (.parseError "../../etc/passwd" msg)) ∧
    (∃ msg, ∀ (α : Type) (openFile : String → Except String α),
        (FileRetriever.mk "/data/feeds").call "NUL/feed.xml" openFile =
          .error (.parseError "NUL/feed.xml" msg)) :=
  ⟨C4_path_containment.1 (FileRetriever.mk "/data/feeds") "file:///etc/passwd"
      (by decide) (Or.inl (by decide)),
    C4_path_containment.1 (FileRetriever.mk "/data/feeds") "../../etc/passwd"
      (by decide) (Or.inr (by decide)),
    C4_path_containment.2 (FileRetriever.mk "/data/feeds") "NUL/feed.xml"
      "/data/feeds/NUL/feed.xml" (by decide) (by decide) (by decide)⟩

/-! ## Claim C10: empty feed root disables every check -/

/-- Claim C10.  With feed_root equal to the empty string, normalization
returns the extracted path unchanged for every URL, so no containment check
and no reserved-name check runs, and any path the filesystem can open (such
as /etc/passwd) is opened and served without rejection. -/
theorem C10_empty_root_no_checks :
    ∀ (r : FileRetriever), r.feed_root = "" →
      (∀ url, r._normalize_url url = .ok (extract_path url)) ∧
      (∀ (url : String) (α : Type) (openFile : String → Except String α) f,
        openFile (extract_path url) = .ok f →
        r.call url openFile = .ok ⟨f⟩) := by
  intro r hroot
  constructor
  · intro url
    simp [FileRetriever._normalize_url, hroot]
  · intro url α openFile f hopen
    simp [FileRetriever.call, FileRetriever._normalize_url, hroot, hopen]

/-- Claim C10, witness: with an empty root, /etc/passwd normalizes to itself
and is opened directly. -/
theorem C10_empty_root_no_checks_witness :
    (FileRetriever.mk "")._normalize_url "/etc/passwd" = .ok "/etc/passwd" ∧
    (FileRetriever.mk "").call "/etc/passwd" (fun p => Except.ok p) =
      .ok ⟨"/etc/passwd"⟩ := by
  have h := C10_empty_root_no_checks (FileRetriever.mk "") rfl
  have hx : extract_path "/etc/passwd" = "/etc/passwd" := by decide
  constructor
  · have h1 := h.1 "/etc/passwd"
    rwa [hx] at h1
  · have h2 := h.2 "/etc/passwd" String (fun p => Except.ok p)
      (extract_path "/etc/passwd") rfl
    rwa [hx] at h2

/-! ## Pagination (join_paginated_iter, src/reader/_utils.py) -/

/-- Chunk size requested by one iteration of the pagination loop: chunk_size
when there is no limit, otherwise the smaller of the remaining budget and
chunk_size. -/
def jpiToGet (chunk_size limit remaining : Nat) : Nat :=
  if limit ≠ 0 then min remaining chunk_size else chunk_size

/-- Embedding of the chunked while-loop of join_paginated_iter.  The fuel
argument bounds how far the lazy generator is forced (the Python loop can
produce forever when no limit is given); the result is the yielded items,
the trace of (size, cursor) requests actually issued, and whether the
generator finished by reaching one of its break statements (false means the
fuel ran out mid-stream). -/
def jpiLoop (f : Nat → Option κ → List (α × κ)) (chunk_size limit : Nat) :
    Nat → Nat → Option κ → List α × List (Nat × Option κ) × Bool
  | 0, _, _ => ([], [], false)
  | fuel + 1, remaining, last =>
    if limit ≠ 0 ∧ remaining = 0 then ([], [], true)
    else
      let to_get := jpiToGet chunk_size limit remaining
      let things := f to_get last
      match things.getLast? with
      | none => ([], [(to_get, last)], true)
      | some tl =>
        if things.length < to_get then
          (things.map Prod.fst, [(to_get, last)], true)
        else
          let r := jpiLoop f chunk_size limit fuel
            (if limit ≠ 0 then remaining - to_get else remaining)
            (some tl.2)
          (things.map Prod.fst ++ r.1, (to_get, last) :: r.2.1, r.2.2)

/-- Embedding of join_paginated_iter (_utils.py): chunk_size 0 disables
chunking and issues a single call passing limit as the size; otherwise the
chunked loop runs with the limit as the initial remaining budget. -/
def join_paginated_iter (f : Nat → Option κ → List (α × κ))
    (chunk_size : Nat) (last : Option κ) (limit : Nat) (fuel : Nat) :
    List α × List (Nat × Option κ) × Bool :=
  if chunk_size = 0 then
    ((f limit last).map Prod.fst, [(limit, last)], true)
  else
    jpiLoop f chunk_size limit fuel limit last

/-- Validity of a pagination request trace, walked with the remaining
budget and the threaded cursor: every call requests chunk_size items (or the
remaining count when a limit constrains the total) at the cursor equal to
the sort key of the last item of the previous call; a non-final call must
have received a full chunk with budget left over; the final call, when the
generator finished by itself, must have received a short chunk or exhausted
the limit. -/
def traceOK [DecidableEq κ] (f : Nat → Option κ → List (α × κ))
    (chunk_size limit : Nat) (completed : Bool) :
    Nat → Option κ → List (Nat × Option κ) → Bool
  | remaining, _, [] =>
    !completed || (decide (limit ≠ 0) && decide (remaining = 0))
  | remaining, last, (n, c) :: rest =>
    let things := f n c
    decide (n = jpiToGet chunk_size limit remaining)
      && decide (c = last)
      && (if rest.isEmpty then
            !completed ||
              (decide (things.length < n) ||
                (decide (limit ≠ 0) && decide (remaining - n = 0)))
          else
            !things.isEmpty && decide (n ≤ things.length)
              && (decide (limit = 0) || decide (remaining - n ≠ 0))
              && traceOK f chunk_size limit completed
                  (if limit ≠ 0 then remaining - n else remaining)
                  (things.getLast?.map Prod.snd) rest)

theorem jpiLoop_empty_trace {f : Nat → Option κ → List (α × κ)}
    {chunk_size limit fuel remaining : Nat} {last : Option κ} :
    (jpiLoop f chunk_size limit fuel remaining last).2.1 = [] →
    (jpiLoop f chunk_size limit fuel remaining last).2.2 = true →
    limit ≠ 0 ∧ remaining = 0 := by
  cases fuel with
  | zero => intro _ hc; exact absurd hc (by simp [jpiLoop])
  | succ fuel =>
    intro ht _
    by_cases hstop : limit ≠ 0 ∧ remaining = 0
    · exact hstop
    · exfalso
      simp only [jpiLoop, if_neg hstop] at ht
      rcases hl : (f (jpiToGet chunk_size limit remaining) last).getLast? with
        _ | tl
      · rw [hl] at ht; simp at ht
      · rw [hl] at ht
        by_cases hshort :
            (f (jpiToGet chunk_size limit remaining) last).length <
              jpiToGet chunk_size limit remaining
        · simp [hshort] at ht
        · simp [hshort] at ht

theorem jpiLoop_stop_trace (f : Nat → Option κ → List (α × κ))
    (chunk_size limit fuel : Nat) (last : Option κ) (hlim : limit ≠ 0) :
    (jpiLoop f chunk_size limit fuel 0 last).2.1 = [] := by
  cases fuel with
  | zero => simp [jpiLoop]
  | succ fuel => simp [jpiLoop, hlim]

theorem jpiLoop_out_bind {f : Nat → Option κ → List (α × κ)}
    {chunk_size limit : Nat} :
    ∀ (fuel remaining : Nat) (last : Option κ),
      (jpiLoop f chunk_size limit fuel remaining last).1 =
        (jpiLoop f chunk_size limit fuel remaining last).2.1.flatMap
          (fun p => (f p.1 p.2).map Prod.fst) := by
  intro fuel
  induction fuel with
  | zero => intro remaining last; simp [jpiLoop]
  | succ fuel ih =>
    intro remaining last
    by_cases hstop : limit ≠ 0 ∧ remaining = 0
    · simp [jpiLoop, hstop]
    · simp only [jpiLoop, if_neg hstop]
      rcases hl : (f (jpiToGet chunk_size limit remaining) last).getLast? with
        _ | tl
      · have : f (jpiToGet chunk_size limit remaining) last = [] :=
          List.getLast?_eq_none_iff.mp hl
        simp [this]
      · by_cases hshort :
            (f (jpiToGet chunk_size limit remaining) last).length <
              jpiToGet chunk_size limit remaining
        · simp [hshort]
        · simp only [hshort, if_false, ite_false]
          simp [ih]

theorem jpiLoop_toGet_pos {chunk_size limit remaining : Nat}
    (hcs : chunk_size ≠ 0) (h : ¬(limit ≠ 0 ∧ remaining = 0)) :
    0 < jpiToGet chunk_size limit remaining := by
  unfold jpiToGet
  by_cases hlim : limit = 0
  · simp [hlim, Nat.pos_of_ne_zero hcs]
  · have hrem : remaining ≠ 0 := fun h0 => h ⟨hlim, h0⟩
    simp [hlim, Nat.pos_of_ne_zero hcs, Nat.pos_of_ne_zero hrem]

theorem jpiLoop_traceOK [DecidableEq κ] {f : Nat → Option κ → List (α × κ)}
    {chunk_size limit : Nat} (hcs : chunk_size ≠ 0) :
    ∀ (fuel remaining : Nat) (last : Option κ),
      traceOK f chunk_size limit
        (jpiLoop f chunk_size limit fuel remaining last).2.2 remaining last
        (jpiLoop f chunk_size limit fuel remaining last).2.1 = true := by
  intro fuel
  induction fuel with
  | zero => intro remaining last; simp [jpiLoop, traceOK]
  | succ fuel ih =>
    intro remaining last
    by_cases hstop : limit ≠ 0 ∧ remaining = 0
    · simp [jpiLoop, hstop, traceOK]
    · simp only [jpiLoop, if_neg hstop]
      have hpos := jpiLoop_toGet_pos hcs hstop
      rcases hl : (f (jpiToGet chunk_size limit remaining) last).getLast? with
        _ | tl
      · have hnil : f (jpiToGet chunk_size limit remaining) last = [] :=
          List.getLast?_eq_none_iff.mp hl
        simp [traceOK, hnil, hpos]
      · by_cases hshort :
            (f (jpiToGet chunk_size limit remaining) last).length <
              jpiToGet chunk_size limit remaining
        · simp [hshort, traceOK]
        · simp only [hshort, if_false, ite_false]
          have hflip :
              (if limit ≠ 0 then
                remaining - jpiToGet chunk_size limit remaining
              else remaining) =
              (if limit = 0 then remaining
              else remaining - jpiToGet chunk_size limit remaining) := by
            by_cases hlim : limit = 0 <;> simp [hlim]
          rcases htr : (jpiLoop f chunk_size limit fuel
              (if limit ≠ 0 then
                remaining - jpiToGet chunk_size limit remaining
              else remaining) (some tl.2)).2.1 with _ | ⟨p, rest⟩
          · -- the recursive call produced no further requests
            simp only [traceOK, htr, List.isEmpty_nil, if_true]
            by_cases hcderiv : (jpiLoop f chunk_size limit fuel
                (if limit ≠ 0 then
                  remaining - jpiToGet chunk_size limit remaining
                else remaining) (some tl.2)).2.2 = true
            · have hst := jpiLoop_empty_trace htr hcderiv
              have hrem2 :
                  remaining - jpiToGet chunk_size limit remaining = 0 := by
                have := hst.2
                rw [if_pos hst.1] at this
                exact this
              simp [hcderiv, hst.1, hrem2]
            · have hfalse := Bool.of_not_eq_true hcderiv
              rw [hflip] at hfalse
              simp [hfalse]
          · -- the recursive call made further requests
            have hmore : ¬(limit ≠ 0 ∧
                remaining - jpiToGet chunk_size limit remaining = 0) := by
              rintro ⟨hlim, hz⟩
              have := jpiLoop_stop_trace f chunk_size limit fuel
                (some tl.2) hlim
              rw [if_pos hlim, hz] at htr
              rw [htr] at this
              exact absurd this (by simp)
            have hrec := ih (if limit ≠ 0 then
                remaining - jpiToGet chunk_size limit remaining
              else remaining) (some tl.2)
            rw [htr] at hrec
            have hne : f (jpiToGet chunk_size limit remaining) last ≠ [] := by
              intro h0
              rw [h0] at hl
              exact absurd hl (by simp)
            have hbud :
                (decide (limit = 0) ||
                  decide (remaining - jpiToGet chunk_size limit remaining ≠ 0))
                  = true := by
              by_cases hlim : limit = 0
              · simp [hlim]
              · have hz : remaining - jpiToGet chunk_size limit remaining ≠ 0 :=
                  fun hz => hmore ⟨hlim, hz⟩
                simp [hz]
            have hbud2 :
                limit = 0 ∨
                  ¬remaining - jpiToGet chunk_size limit remaining = 0 := by
              by_cases hlim : limit = 0
              · exact Or.inl hlim
              · exact Or.inr fun hz => hmore ⟨hlim, hz⟩
            rw [hflip] at hrec
            rw [traceOK]
            simp only [htr, List.isEmpty_cons, Bool.false_eq_true, if_false,
              ite_false, hl]
            simp [hne, Nat.le_of_not_lt hshort]
            exact ⟨hbud2, hrec⟩

theorem jpiLoop_completes {f : Nat → Option κ → List (α × κ)}
    {chunk_size limit : Nat} (hcs : chunk_size ≠ 0) (hlim : limit ≠ 0) :
    ∀ (fuel remaining : Nat) (last : Option κ), remaining < fuel →
      (jpiLoop f chunk_size limit fuel remaining last).2.2 = true := by
  intro fuel
  induction fuel with
  | zero => intro remaining last h; exact absurd h (Nat.not_lt_zero _)
  | succ fuel ih =>
    intro remaining last hle
    by_cases hstop : limit ≠ 0 ∧ remaining = 0
    · simp [jpiLoop, hstop]
    · simp only [jpiLoop, if_neg hstop]
      have hpos := jpiLoop_toGet_pos hcs hstop
      rcases hl : (f (jpiToGet chunk_size limit remaining) last).getLast? with
        _ | tl
      · simp
      · by_cases hshort :
            (f (jpiToGet chunk_size limit remaining) last).length <
              jpiToGet chunk_size limit remaining
        · simp [hshort]
        · simp only [hshort, if_false, ite_false]
          have hrem : remaining ≠ 0 := fun h0 => hstop ⟨hlim, h0⟩
          have hlt : remaining - jpiToGet chunk_size limit remaining <
              remaining :=
            Nat.sub_lt (Nat.pos_of_ne_zero hrem) hpos
          have : remaining - jpiToGet chunk_size limit remaining < fuel :=
            Nat.lt_of_lt_of_le hlt (Nat.lt_succ_iff.mp hle)
          rw [if_pos hlim]
          exact ih _ (some tl.2) this

/-! ## Claim C5: pagination protocol of join_paginated_iter -/

/-- Claim C5.  With chunking disabled (chunk_size 0) the routine makes
exactly one call passing limit as the size and yields everything it returns.
With chunking on, the request trace it issues is valid: each call requests
jpiToGet items (chunk_size, or the smaller remaining count when a limit
constrains the total) at the cursor threaded from the last item of the
previous chunk; a non-final call received a full chunk with budget left; the
final call of a finished run received a short chunk or exhausted the limit;
everything every chunk returned is yielded in order; and with a limit the
run finishes within limit+1 calls. -/
theorem C5_join_paginated_iter {κ α : Type} [DecidableEq κ]
    (f : Nat → Option κ → List (α × κ)) (chunk_size limit fuel : Nat)
    (last : Option κ) :
    (join_paginated_iter f 0 last limit fuel =
      ((f limit last).map Prod.fst, [(limit, last)], true)) ∧
    (chunk_size ≠ 0 →
      traceOK f chunk_size limit
          (join_paginated_iter f chunk_size last limit fuel).2.2 limit last
          (join_paginated_iter f chunk_size last limit fuel).2.1 = true) ∧
    (chunk_size ≠ 0 →
      (join_paginated_iter f chunk_size last limit fuel).1 =
        (join_paginated_iter f chunk_size last limit fuel).2.1.flatMap
          (fun p => (f p.1 p.2).map Prod.fst)) ∧
    (chunk_size ≠ 0 → limit ≠ 0 → limit < fuel →
      (join_paginated_iter f chunk_size last limit fuel).2.2 = true) := by
  refine ⟨by simp [join_paginated_iter], ?_, ?_, ?_⟩
  · intro hcs
    simp only [join_paginated_iter, if_neg hcs]
    exact jpiLoop_traceOK hcs fuel limit last
  · intro hcs
    simp only [join_paginated_iter, if_neg hcs]
    exact jpiLoop_out_bind fuel limit last
  · intro hcs hlim hfuel
    simp only [join_paginated_iter, if_neg hcs]
    exact jpiLoop_completes hcs hlim fuel limit last hfuel

/-- Concrete three-item fetch table used by the C5 witness: the items and
their sort keys are 1, 2, 3, and the cursor selects the items strictly after
the given key. -/
def witFetch (n : Nat) (c : Option Nat) : List (Nat × Nat) :=
  (match c with
    | none => [(1, 1), (2, 2), (3, 3)]
    | some 1 => [(2, 2), (3, 3)]
    | some 2 => [(3, 3)]
    | _ => []).take n

/-- Claim C5, witness: the pagination theorem applied to the concrete fetch
table, with chunking disabled, with chunk size 2 and no limit, and with a
limit smaller than the fuel. -/
theorem C5_join_paginated_iter_witness :
    (join_paginated_iter witFetch 0 none 2 5 =
      ((witFetch 2 none).map Prod.fst, [(2, none)], true)) ∧
    traceOK witFetch 2 0 (join_paginated_iter witFetch 2 none 0 5).2.2 0 none
      (join_paginated_iter witFetch 2 none 0 5).2.1 = true ∧
    (join_paginated_iter witFetch 2 none 0 5).1 =
      (join_paginated_iter witFetch 2 none 0 5).2.1.flatMap
        (fun p => (witFetch p.1 p.2).map Prod.fst) ∧
    (join_paginated_iter witFetch 2 none 3 5).2.2 = true :=
  ⟨(C5_join_paginated_iter witFetch 2 2 5 none).1,
    (C5_join_paginated_iter witFetch 2 0 5 none).2.1 (by decide),
    (C5_join_paginated_iter witFetch 2 0 5 none).2.2.1 (by decide),
    (C5_join_paginated_iter witFetch 2 3 5 none).2.2.2 (by decide) (by decide)
      (by decide)⟩

/-! ## Concurrency pool (make_pool_map / imap_unordered, src/reader/_utils.py)

The generator imap_unordered is embedded as a state machine driven by the
consumer's next() calls.  A task in flight is modelled by the result its
future will eventually deliver; the nondeterminism of which futures the
executor completes at each concurrent.futures.wait call is an oracle mask
passed in from outside. -/

/-- State of the imap_unordered generator between two resumption points:
the unconsumed source iterator, the iterable_ended flag, the in-flight
tasks, and the results of the most recent wait batch that are still to be
yielded one at a time. -/
structure GenState (α β : Type) where
  remaining : List α
  ended : Bool
  pending : List β
  donebuf : List β
deriving Repr, DecidableEq

/-- Initial generator state for a given input sequence. -/
def initState (inputs : List α) : GenState α β :=
  ⟨inputs, false, [], []⟩

/-- In-flight load of a state: everything submitted or buffered but not yet
yielded, together with the results the untouched source would produce. -/
def load (f : α → β) (s : GenState α β) : List β :=
  s.pending ++ s.donebuf ++ s.remaining.map f

/-- Embedding of the submission loop of imap_unordered (while len(pending)
is under workers and the iterable has not ended, submit the next URL).
Returns the new source/ended/pending and the pending-set size observed at
each submission. -/
def fillGo (w : Nat) (f : α → β) :
    List α → Bool → List β → List α × Bool × List β × List Nat
  | rem, ended, pending =>
    if pending.length < w ∧ ended = false then
      match rem with
      | [] => ([], true, pending, [])
      | a :: rest =>
        let r := fillGo w f rest false (pending ++ [f a])
        (r.1, r.2.1, r.2.2.1, pending.length :: r.2.2.2)
    else (rem, ended, pending, [])
termination_by rem _ _ => rem.length

/-- Partition of the pending set by the completion mask chosen by the wait
oracle, preserving order within both parts. -/
def maskSplit : List Bool → List β → List β × List β
  | _, [] => ([], [])
  | [], x :: xs =>
    let r := maskSplit [] xs
    (r.1, x :: r.2)
  | m :: ms, x :: xs =>
    let r := maskSplit ms xs
    if m then (x :: r.1, r.2) else (r.1, x :: r.2)

/-- Embedding of concurrent.futures.wait with FIRST_COMPLETED: the oracle
mask picks the completed subset; wait blocks until at least one future is
done, so an empty selection is forced to the first pending task. -/
def waitSplit (mask : List Bool) (pending : List β) : List β × List β :=
  let r := maskSplit mask pending
  if r.1.isEmpty then (pending.take 1, pending.drop 1) else r

/-- One resumption of the imap_unordered generator (one next() call of the
consumer): yield from the previous wait batch if results are left in it;
otherwise finish if nothing is in flight and the source has ended, run the
submission loop, finish if it leaves nothing in flight, else wait for the
completion batch chosen by the oracle mask and yield its first result.
Returns the yielded result (none = the generator finished), the successor
state, and the pending sizes observed at the submissions of this pull. -/
def pullOnce (w : Nat) (f : α → β) (mask : List Bool) (s : GenState α β) :
    Option β × GenState α β × List Nat :=
  match s.donebuf with
  | b :: rest => (some b, ⟨s.remaining, s.ended, s.pending, rest⟩, [])
  | [] =>
    if s.pending.isEmpty ∧ s.ended = true then (none, s, [])
    else
      let fl := fillGo w f s.remaining s.ended s.pending
      if fl.2.2.1.isEmpty then
        (none, ⟨fl.1, fl.2.1, fl.2.2.1, []⟩, fl.2.2.2)
      else
        let ds := waitSplit mask fl.2.2.1
        match ds.1 with
        | [] => (none, s, fl.2.2.2)
        | b :: dbuf => (some b, ⟨fl.1, fl.2.1, ds.2, dbuf⟩, fl.2.2.2)

/-- Outcome of a bounded run of the generator. -/
structure RunResult (α β : Type) where
  yielded : List β
  final : GenState α β
  visited : List (GenState α β)
  subSizes : List Nat
  finished : Bool
deriving Repr, DecidableEq

/-- Driver: up to n consumer pulls, the k-th wait using the oracle mask
sched k; collects the yielded results, the visited states, and the pending
sizes at all submissions; stops early (finished) when a pull yields
nothing. -/
def pullN (w : Nat) (f : α → β) (sched : Nat → List Bool) :
    Nat → Nat → GenState α β → RunResult α β
  | 0, _, s => ⟨[], s, [s], [], false⟩
  | n + 1, k, s =>
    match pullOnce w f (sched k) s with
    | (none, s2, subs) => ⟨[], s2, [s, s2], subs, true⟩
    | (some b, s2, subs) =>
      let r := pullN w f sched n (k + 1) s2
      ⟨b :: r.yielded, r.final, s :: r.visited, subs ++ r.subSizes, r.finished⟩

/-- Invariant of reachable generator states: never more than w tasks in
flight or buffered, and an ended iterator has been fully consumed. -/
def SInv (w : Nat) (s : GenState α β) : Prop :=
  s.pending.length + s.donebuf.length ≤ w ∧
    (s.ended = true → s.remaining = [])

theorem fillGo_spec (w : Nat) (f : α → β) :
    ∀ (rem : List α) (ended : Bool) (pending : List β),
      ∃ k, (fillGo w f rem ended pending).1 = rem.drop k ∧
        (fillGo w f rem ended pending).2.2.1 =
          pending ++ (rem.take k).map f := by
  intro rem
  induction rem with
  | nil =>
    intro ended pending
    rw [fillGo]
    by_cases h : pending.length < w ∧ ended = false
    · exact ⟨0, by simp [h], by simp [h]⟩
    · exact ⟨0, by simp [h], by simp [h]⟩
  | cons a rest ih =>
    intro ended pending
    rw [fillGo]
    by_cases h : pending.length < w ∧ ended = false
    · rcases ih false (pending ++ [f a]) with ⟨k, h1, h2⟩
      refine ⟨k + 1, by simp [h, h1], ?_⟩
      simp [h, h2]
    · exact ⟨0, by simp [h], by simp [h]⟩

theorem fillGo_bound (w : Nat) (f : α → β) :
    ∀ (rem : List α) (ended : Bool) (pending : List β),
      pending.length ≤ w → (fillGo w f rem ended pending).2.2.1.length ≤ w := by
  intro rem
  induction rem with
  | nil =>
    intro ended pending hp
    rw [fillGo]
    by_cases h : pending.length < w ∧ ended = false <;> simp [h, hp]
  | cons a rest ih =>
    intro ended pending hp
    rw [fillGo]
    by_cases h : pending.length < w ∧ ended = false
    · have : (pending ++ [f a]).length ≤ w := by
        simp only [List.length_append, List.length_singleton]
        exact h.1
      simpa [h] using ih false (pending ++ [f a]) this
    · simp [h, hp]

theorem fillGo_subs (w : Nat) (f : α → β) :
    ∀ (rem : List α) (ended : Bool) (pending : List β),
      ∀ n ∈ (fillGo w f rem ended pending).2.2.2, n < w := by
  intro rem
  induction rem with
  | nil =>
    intro ended pending
    rw [fillGo]
    by_cases h : pending.length < w ∧ ended = false <;> simp [h]
  | cons a rest ih =>
    intro ended pending
    rw [fillGo]
    by_cases h : pending.length < w ∧ ended = false
    · simp only [h, and_self, if_true, List.mem_cons]
      intro n hn
      rcases hn with rfl | hn
      · exact h.1
      · exact ih false (pending ++ [f a]) n hn
    · simp [h]

theorem fillGo_ended (w : Nat) (f : α → β) :
    ∀ (rem : List α) (ended : Bool) (pending : List β),
      (ended = true → rem = []) →
      (fillGo w f rem ended pending).2.1 = true →
      (fillGo w f rem ended pending).1 = [] := by
  intro rem
  induction rem with
  | nil =>
    intro ended pending _ _
    rw [fillGo]
    by_cases h : pending.length < w ∧ ended = false <;> simp [h]
  | cons a rest ih =>
    intro ended pending hin hend
    rw [fillGo] at hend ⊢
    by_cases h : pending.length < w ∧ ended = false
    · simp only [h, and_self, if_true] at hend ⊢
      exact ih false (pending ++ [f a]) (by simp) hend
    · simp only [h, if_false, ite_false] at hend ⊢
      exact absurd (hin hend) (by simp)

theorem fillGo_empty (w : Nat) (f : α → β) (rem : List α) (ended : Bool)
    (pending : List β)
    (h : (fillGo w f rem ended pending).2.2.1 = []) :
    pending = [] ∧ (fillGo w f rem ended pending).1 = rem := by
  rcases fillGo_spec w f rem ended pending with ⟨k, h1, h2⟩
  rw [h2] at h
  rcases List.append_eq_nil.mp h with ⟨hp, ht⟩
  refine ⟨hp, ?_⟩
  rw [h1]
  have htk : rem.take k = [] := by
    cases htk : rem.take k with
    | nil => rfl
    | cons b bs => rw [htk] at ht; simp at ht
  rcases List.take_eq_nil_iff.mp htk with hk | hrem
  · simp [hk]
  · simp [hrem]

theorem maskSplit_perm :
    ∀ (m : List Bool) (xs : List β),
      ((maskSplit m xs).1 ++ (maskSplit m xs).2).Perm xs := by
  intro m xs
  induction xs generalizing m with
  | nil => cases m <;> simp [maskSplit]
  | cons x xs ih =>
    cases m with
    | nil =>
      simp only [maskSplit]
      exact List.perm_middle.trans ((ih []).cons x)
    | cons m ms =>
      by_cases hm : m
      · simp only [maskSplit, hm, if_true]
        exact (ih ms).cons x
      · simp only [maskSplit, hm, if_false, Bool.false_eq_true, ite_false]
        exact List.perm_middle.trans ((ih ms).cons x)

theorem waitSplit_perm (m : List Bool) (xs : List β) :
    ((waitSplit m xs).1 ++ (waitSplit m xs).2).Perm xs := by
  unfold waitSplit
  by_cases h : (maskSplit m xs).1.isEmpty
  · simp only [h, if_true]
    rw [List.take_append_drop]
  · simpa [h] using maskSplit_perm m xs

theorem waitSplit_ne (m : List Bool) (xs : List β) (hxs : xs ≠ []) :
    (waitSplit m xs).1 ≠ [] := by
  unfold waitSplit
  by_cases h : (maskSplit m xs).1.isEmpty
  · simp only [h, if_true]
    cases xs with
    | nil => exact absurd rfl hxs
    | cons x xs => simp
  · simpa [h] using fun h0 => h (by simp [h0])

theorem pullOnce_rcases (w : Nat) (f : α → β) (mask : List Bool)
    (s : GenState α β) :
    (∃ b rest, s.donebuf = b :: rest ∧
      pullOnce w f mask s =
        (some b, ⟨s.remaining, s.ended, s.pending, rest⟩, [])) ∨
    (s.donebuf = [] ∧ s.pending = [] ∧ s.ended = true ∧
      pullOnce w f mask s = (none, s, [])) ∨
    (s.donebuf = [] ∧ ¬(s.pending = [] ∧ s.ended = true) ∧
      (((fillGo w f s.remaining s.ended s.pending).2.2.1 = [] ∧
        pullOnce w f mask s =
          (none,
            ⟨(fillGo w f s.remaining s.ended s.pending).1,
              (fillGo w f s.remaining s.ended s.pending).2.1, [], []⟩,
            (fillGo w f s.remaining s.ended s.pending).2.2.2)) ∨
      (∃ b dbuf,
        (fillGo w f s.remaining s.ended s.pending).2.2.1 ≠ [] ∧
        (waitSplit mask
          (fillGo w f s.remaining s.ended s.pending).2.2.1).1 = b :: dbuf ∧
        pullOnce w f mask s =
          (some b,
            ⟨(fillGo w f s.remaining s.ended s.pending).1,
              (fillGo w f s.remaining s.ended s.pending).2.1,
              (waitSplit mask
                (fillGo w f s.remaining s.ended s.pending).2.2.1).2, dbuf⟩,
            (fillGo w f s.remaining s.ended s.pending).2.2.2)))) := by
  rcases hdb : s.donebuf with _ | ⟨b, rest⟩
  · right
    by_cases h1 : s.pending.isEmpty ∧ s.ended = true
    · left
      refine ⟨rfl, List.isEmpty_iff.mp h1.1, h1.2, ?_⟩
      simp [pullOnce, hdb, h1]
    · right
      refine ⟨rfl, fun hc => h1 ⟨by simp [hc.1], hc.2⟩, ?_⟩
      by_cases h2 : (fillGo w f s.remaining s.ended s.pending).2.2.1.isEmpty
      · left
        have h2e : (fillGo w f s.remaining s.ended s.pending).2.2.1 = [] :=
          List.isEmpty_iff.mp h2
        refine ⟨h2e, ?_⟩
        simp only [pullOnce, hdb]
        rw [if_neg h1, if_pos (by simpa using h2)]
        simp [h2e]
      · right
        have hne : (fillGo w f s.remaining s.ended s.pending).2.2.1 ≠ [] :=
          fun h0 => h2 (by simp [h0])
        rcases hds : (waitSplit mask
            (fillGo w f s.remaining s.ended s.pending).2.2.1).1 with _ | ⟨b, dbuf⟩
        · exact absurd hds (waitSplit_ne _ _ hne)
        · refine ⟨b, dbuf, hne, rfl, ?_⟩
          simp only [pullOnce, hdb]
          rw [if_neg h1, if_neg (by simpa using h2)]
          rw [hds]
  · left
    exact ⟨b, rest, rfl, by simp [pullOnce, hdb]⟩

/-- List view of an optional yield. -/
def optList : Option β → List β
  | none => []
  | some b => [b]

theorem pullOnce_load (w : Nat) (f : α → β) (mask : List Bool)
    (s : GenState α β) :
    (optList (pullOnce w f mask s).1 ++
      load f (pullOnce w f mask s).2.1).Perm (load f s) := by
  rcases pullOnce_rcases w f mask s with
    ⟨b, rest, hdb, heq⟩ | ⟨hdb, hp, he, heq⟩ |
    ⟨hdb, hne1, ⟨hfe, heq⟩ | ⟨b, dbuf, hne, hds, heq⟩⟩
  · rw [heq]
    simp only [optList, load, hdb, List.singleton_append, List.append_assoc]
    exact List.perm_middle.symm
  · rw [heq]
    simp [optList]
  · rw [heq]
    rcases fillGo_empty w f s.remaining s.ended s.pending hfe with ⟨hsp, hrem⟩
    simp only [optList, load, hdb, List.nil_append, List.append_nil]
    rw [hrem, hsp]
    simp
  · rw [heq]
    rcases fillGo_spec w f s.remaining s.ended s.pending with ⟨k, h1, h2⟩
    have hws := waitSplit_perm mask
      (fillGo w f s.remaining s.ended s.pending).2.2.1
    rw [hds] at hws
    simp only [optList, load, hdb, List.singleton_append, List.append_nil,
      List.append_assoc, h1]
    have hsplit : s.pending ++ s.remaining.map f =
        (fillGo w f s.remaining s.ended s.pending).2.2.1 ++
          (s.remaining.drop k).map f := by
      rw [h2, List.append_assoc, ← List.map_append, List.take_append_drop]
    rw [hsplit]
    refine List.Perm.trans ?_
      (hws.append_right ((s.remaining.drop k).map f))
    simp only [List.cons_append, List.append_assoc]
    exact (List.perm_append_comm_assoc _ _ _).cons b

theorem fillGo_nil_pending (w : Nat) (f : α → β) (ended : Bool)
    (pending : List β) :
    (fillGo w f ([] : List α) ended pending).2.2.1 = pending := by
  rw [fillGo]
  by_cases h : pending.length < w ∧ ended = false <;> simp [h]

theorem fillGo_cons_ne (w : Nat) (f : α → β) (hw : 0 < w) (a : α)
    (rest : List α) :
    (fillGo w f (a :: rest) false ([] : List β)).2.2.1 ≠ [] := by
  rw [fillGo]
  rw [if_pos (⟨by simpa using hw, rfl⟩ :
    ([] : List β).length < w ∧ (false : Bool) = false)]
  rcases fillGo_spec w f rest false ([] ++ [f a]) with ⟨k, _, hq⟩
  simp only [List.nil_append] at hq
  simp [hq]

theorem pullOnce_inv (w : Nat) (f : α → β) (mask : List Bool)
    (s : GenState α β) (hinv : SInv w s) :
    SInv w (pullOnce w f mask s).2.1 := by
  rcases pullOnce_rcases w f mask s with
    ⟨b, rest, hdb, heq⟩ | ⟨hdb, hp, he, heq⟩ |
    ⟨hdb, hne1, ⟨hfe, heq⟩ | ⟨b, dbuf, hne, hds, heq⟩⟩
  · rw [heq]
    refine ⟨?_, hinv.2⟩
    have h1 := hinv.1
    rw [hdb] at h1
    simp only [List.length_cons] at h1
    simpa using Nat.le_of_succ_le (by omega : s.pending.length + rest.length + 1 ≤ w)
  · rw [heq]; exact hinv
  · rw [heq]
    refine ⟨by simp, fun hend => ?_⟩
    exact fillGo_ended w f s.remaining s.ended s.pending hinv.2 hend
  · rw [heq]
    have hb : s.pending.length ≤ w := le_trans (Nat.le_add_right _ _) hinv.1
    have hfb := fillGo_bound w f s.remaining s.ended s.pending hb
    have hws := waitSplit_perm mask
      (fillGo w f s.remaining s.ended s.pending).2.2.1
    rw [hds] at hws
    have hlen := hws.length_eq
    simp only [List.length_append, List.length_cons] at hlen
    refine ⟨?_, fun hend => ?_⟩
    · simp only []
      omega
    · exact fillGo_ended w f s.remaining s.ended s.pending hinv.2 hend

theorem pullOnce_subs (w : Nat) (f : α → β) (mask : List Bool)
    (s : GenState α β) :
    ∀ n ∈ (pullOnce w f mask s).2.2, n < w := by
  rcases pullOnce_rcases w f mask s with
    ⟨b, rest, hdb, heq⟩ | ⟨hdb, hp, he, heq⟩ |
    ⟨hdb, hne1, ⟨hfe, heq⟩ | ⟨b, dbuf, hne, hds, heq⟩⟩ <;> rw [heq]
  · simp
  · simp
  · exact fillGo_subs w f s.remaining s.ended s.pending
  · exact fillGo_subs w f s.remaining s.ended s.pending

theorem pullOnce_suffix (w : Nat) (f : α → β) (mask : List Bool)
    (s : GenState α β) :
    ∃ k, (pullOnce w f mask s).2.1.remaining = s.remaining.drop k := by
  rcases pullOnce_rcases w f mask s with
    ⟨b, rest, hdb, heq⟩ | ⟨hdb, hp, he, heq⟩ |
    ⟨hdb, hne1, ⟨hfe, heq⟩ | ⟨b, dbuf, hne, hds, heq⟩⟩ <;> rw [heq]
  · exact ⟨0, by simp⟩
  · exact ⟨0, by simp⟩
  · rcases fillGo_spec w f s.remaining s.ended s.pending with ⟨k, h1, _⟩
    exact ⟨k, h1⟩
  · rcases fillGo_spec w f s.remaining s.ended s.pending with ⟨k, h1, _⟩
    exact ⟨k, h1⟩

theorem pullOnce_none_iff (w : Nat) (f : α → β) (mask : List Bool)
    (s : GenState α β) (hw : 0 < w) (hinv : SInv w s) :
    (pullOnce w f mask s).1 = none ↔
      s.remaining = [] ∧ s.pending = [] ∧ s.donebuf = [] := by
  constructor
  · intro hnone
    rcases pullOnce_rcases w f mask s with
      ⟨b, rest, hdb, heq⟩ | ⟨hdb, hp, he, heq⟩ |
      ⟨hdb, hne1, ⟨hfe, heq⟩ | ⟨b, dbuf, hne, hds, heq⟩⟩
    · rw [heq] at hnone; exact absurd hnone (by simp)
    · exact ⟨hinv.2 he, hp, hdb⟩
    · rcases fillGo_empty w f s.remaining s.ended s.pending hfe with ⟨hsp, _⟩
      have hend : s.ended = false := by
        cases hse : s.ended
        · rfl
        · exact absurd ⟨hsp, hse⟩ hne1
      cases hsr : s.remaining with
      | nil => exact ⟨rfl, hsp, hdb⟩
      | cons a rest =>
        rw [hsr, hend, hsp] at hfe
        exact absurd hfe (fillGo_cons_ne w f hw a rest)
    · rw [heq] at hnone; exact absurd hnone (by simp)
  · rintro ⟨hr, hp2, hd⟩
    rcases pullOnce_rcases w f mask s with
      ⟨b, rest, hdb, heq⟩ | ⟨hdb, hp, he, heq⟩ |
      ⟨hdb, hne1, ⟨hfe, heq⟩ | ⟨b, dbuf, hne, hds, heq⟩⟩
    · rw [hdb] at hd; exact absurd hd (by simp)
    · rw [heq]
    · rw [heq]
    · exfalso
      cases hse : s.ended
      · have : (fillGo w f s.remaining s.ended s.pending).2.2.1 = [] := by
          rw [hr, hp2, fillGo_nil_pending]
        exact hne this
      · exact hne1 ⟨hp2, hse⟩

theorem fillGo_nil_rem (w : Nat) (f : α → β) (ended : Bool)
    (pending : List β) :
    (fillGo w f ([] : List α) ended pending).1 = [] := by
  rw [fillGo]
  by_cases h : pending.length < w ∧ ended = false <;> simp [h]

theorem pullOnce_none_final (w : Nat) (f : α → β) (mask : List Bool)
    (s : GenState α β) (hw : 0 < w) (hinv : SInv w s)
    (hnone : (pullOnce w f mask s).1 = none) :
    (pullOnce w f mask s).2.1.remaining = [] ∧
      (pullOnce w f mask s).2.1.pending = [] ∧
      (pullOnce w f mask s).2.1.donebuf = [] := by
  have hs := (pullOnce_none_iff w f mask s hw hinv).mp hnone
  rcases pullOnce_rcases w f mask s with
    ⟨b, rest, hdb, heq⟩ | ⟨hdb, hp, he, heq⟩ |
    ⟨hdb, hne1, ⟨hfe, heq⟩ | ⟨b, dbuf, hne, hds, heq⟩⟩
  · rw [heq] at hnone; exact absurd hnone (by simp)
  · rw [heq]; exact hs
  · rw [heq]
    refine ⟨?_, rfl, rfl⟩
    rw [hs.1, fillGo_nil_rem]
  · rw [heq] at hnone; exact absurd hnone (by simp)

theorem pullN_load (w : Nat) (f : α → β) (sched : Nat → List Bool) :
    ∀ (n k : Nat) (s : GenState α β),
      ((pullN w f sched n k s).yielded ++
        load f (pullN w f sched n k s).final).Perm (load f s) := by
  intro n
  induction n with
  | zero => intro k s; simp [pullN]
  | succ n ih =>
    intro k s
    rcases hpo : pullOnce w f (sched k) s with ⟨o, s2, subs⟩
    have hload := pullOnce_load w f (sched k) s
    rw [hpo] at hload
    cases o with
    | none =>
      simp only [pullN, hpo]
      simpa [optList] using hload
    | some b =>
      simp only [pullN, hpo, List.cons_append]
      simp only [optList, List.singleton_append] at hload
      exact ((ih (k + 1) s2).cons b).trans hload

theorem pullN_inv (w : Nat) (f : α → β) (sched : Nat → List Bool) :
    ∀ (n k : Nat) (s : GenState α β), SInv w s →
      SInv w (pullN w f sched n k s).final := by
  intro n
  induction n with
  | zero => intro k s hinv; simpa [pullN] using hinv
  | succ n ih =>
    intro k s hinv
    rcases hpo : pullOnce w f (sched k) s with ⟨o, s2, subs⟩
    have hinv2 := pullOnce_inv w f (sched k) s hinv
    rw [hpo] at hinv2
    cases o with
    | none => simpa [pullN, hpo] using hinv2
    | some b => simpa [pullN, hpo] using ih (k + 1) s2 hinv2

theorem pullN_visited (w : Nat) (f : α → β) (sched : Nat → List Bool) :
    ∀ (n k : Nat) (s : GenState α β), SInv w s →
      ∀ t ∈ (pullN w f sched n k s).visited, SInv w t := by
  intro n
  induction n with
  | zero =>
    intro k s hinv t ht
    simp only [pullN, List.mem_singleton] at ht
    exact ht ▸ hinv
  | succ n ih =>
    intro k s hinv t ht
    rcases hpo : pullOnce w f (sched k) s with ⟨o, s2, subs⟩
    have hinv2 := pullOnce_inv w f (sched k) s hinv
    rw [hpo] at hinv2
    cases o with
    | none =>
      simp only [pullN, hpo, List.mem_cons] at ht
      rcases ht with rfl | rfl | h
      · exact hinv
      · exact hinv2
      · exact absurd h (List.not_mem_nil t)
    | some b =>
      simp only [pullN, hpo, List.mem_cons] at ht
      rcases ht with rfl | ht
      · exact hinv
      · exact ih (k + 1) s2 hinv2 t ht

theorem pullN_subs (w : Nat) (f : α → β) (sched : Nat → List Bool) :
    ∀ (n k : Nat) (s : GenState α β),
      ∀ m ∈ (pullN w f sched n k s).subSizes, m < w := by
  intro n
  induction n with
  | zero => intro k s m hm; simp [pullN] at hm
  | succ n ih =>
    intro k s m hm
    rcases hpo : pullOnce w f (sched k) s with ⟨o, s2, subs⟩
    have hsubs := pullOnce_subs w f (sched k) s
    rw [hpo] at hsubs
    cases o with
    | none =>
      simp only [pullN, hpo] at hm
      exact hsubs m hm
    | some b =>
      simp only [pullN, hpo, List.mem_append] at hm
      rcases hm with hm | hm
      · exact hsubs m hm
      · exact ih (k + 1) s2 m hm

theorem pullN_suffix (w : Nat) (f : α → β) (sched : Nat → List Bool) :
    ∀ (n k : Nat) (s : GenState α β),
      ∃ j, (pullN w f sched n k s).final.remaining = s.remaining.drop j := by
  intro n
  induction n with
  | zero => intro k s; exact ⟨0, by simp [pullN]⟩
  | succ n ih =>
    intro k s
    rcases hpo : pullOnce w f (sched k) s with ⟨o, s2, subs⟩
    have hsfx := pullOnce_suffix w f (sched k) s
    rw [hpo] at hsfx
    rcases hsfx with ⟨j1, hj1⟩
    cases o with
    | none =>
      exact ⟨j1, by simpa [pullN, hpo] using hj1⟩
    | some b =>
      rcases ih (k + 1) s2 with ⟨j2, hj2⟩
      refine ⟨j1 + j2, ?_⟩
      simp only [pullN, hpo]
      rw [hj2, hj1, List.drop_drop, Nat.add_comm]

theorem pullN_finished (w : Nat) (f : α → β) (sched : Nat → List Bool) :
    ∀ (n k : Nat) (s : GenState α β), SInv w s →
      (load f s).length < n →
      (pullN w f sched n k s).finished = true := by
  intro n
  induction n with
  | zero => intro k s _ h; exact absurd h (Nat.not_lt_zero _)
  | succ n ih =>
    intro k s hinv hlen
    rcases hpo : pullOnce w f (sched k) s with ⟨o, s2, subs⟩
    have hload := pullOnce_load w f (sched k) s
    rw [hpo] at hload
    have hinv2 := pullOnce_inv w f (sched k) s hinv
    rw [hpo] at hinv2
    cases o with
    | none => simp [pullN, hpo]
    | some b =>
      simp only [pullN, hpo]
      have hlen2 : (load f s2).length < n := by
        have := hload.length_eq
        simp only [optList, List.singleton_append, List.length_cons] at this
        omega
      exact ih (k + 1) s2 hinv2 hlen2

theorem pullN_finished_final (w : Nat) (f : α → β) (sched : Nat → List Bool)
    (hw : 0 < w) :
    ∀ (n k : Nat) (s : GenState α β), SInv w s →
      (pullN w f sched n k s).finished = true →
      (pullN w f sched n k s).final.remaining = [] ∧
        (pullN w f sched n k s).final.pending = [] ∧
        (pullN w f sched n k s).final.donebuf = [] := by
  intro n
  induction n with
  | zero => intro k s _ h; simp [pullN] at h
  | succ n ih =>
    intro k s hinv hfin
    rcases hpo : pullOnce w f (sched k) s with ⟨o, s2, subs⟩
    have hinv2 := pullOnce_inv w f (sched k) s hinv
    rw [hpo] at hinv2
    cases o with
    | none =>
      have hnone : (pullOnce w f (sched k) s).1 = none := by rw [hpo]
      have := pullOnce_none_final w f (sched k) s hw hinv hnone
      rw [hpo] at this
      simpa [pullN, hpo] using this
    | some b =>
      simp only [pullN, hpo] at hfin ⊢
      exact ih (k + 1) s2 hinv2 hfin

/-! ## Claim C6: bounded, unordered, complete pool execution -/

/-- Claim C6.  For every input sequence, completion oracle and worker count
w of at least 1: every state the generator passes through keeps at most w
tasks in flight; every submission happens at a pending-set size strictly
below w; a run long enough to drain the source terminates having yielded
exactly one result per input element (as a permutation, i.e. unordered,
each wait batch being yielded as soon as the oracle completes it); and a
pull returns nothing exactly when the source is exhausted and the in-flight
set and batch buffer are empty. -/
theorem C6_pool_bounded_unordered {α β : Type} (w : Nat) (f : α → β)
    (sched : Nat → List Bool) (inputs : List α) (hw : 1 ≤ w) :
    (∀ t ∈ (pullN w f sched (inputs.length + 1) 0
        (initState inputs)).visited, t.pending.length ≤ w) ∧
    (∀ m ∈ (pullN w f sched (inputs.length + 1) 0
        (initState inputs)).subSizes, m < w) ∧
    (pullN w f sched (inputs.length + 1) 0
      (initState inputs)).finished = true ∧
    (pullN w f sched (inputs.length + 1) 0
      (initState inputs)).yielded.Perm (inputs.map f) ∧
    (pullN w f sched (inputs.length + 1) 0
      (initState inputs)).final.remaining = [] ∧
    (pullN w f sched (inputs.length + 1) 0
      (initState inputs)).final.pending = [] ∧
    (pullN w f sched (inputs.length + 1) 0
      (initState inputs)).final.donebuf = [] ∧
    (∀ (mask : List Bool) (s : GenState α β), SInv w s →
      ((pullOnce w f mask s).1 = none ↔
        (s.remaining = [] ∧ s.pending = [] ∧ s.donebuf = []))) := by
  have hinv0 : SInv w (initState inputs : GenState α β) := by
    simp [SInv, initState]
  have hlen0 : (load f (initState inputs : GenState α β)).length =
      inputs.length := by
    simp [load, initState]
  have hfin := pullN_finished w f sched (inputs.length + 1) 0
    (initState inputs) hinv0 (by rw [hlen0]; omega)
  have hfinal := pullN_finished_final w f sched hw (inputs.length + 1) 0
    (initState inputs) hinv0 hfin
  have hload := pullN_load w f sched (inputs.length + 1) 0 (initState inputs)
  refine ⟨?_, pullN_subs w f sched _ 0 _, hfin, ?_,
    hfinal.1, hfinal.2.1, hfinal.2.2, ?_⟩
  · intro t ht
    exact le_trans (Nat.le_add_right _ _)
      (pullN_visited w f sched _ 0 _ hinv0 t ht).1
  · have hempty : load f (pullN w f sched (inputs.length + 1) 0
        (initState inputs)).final = [] := by
      simp [load, hfinal.1, hfinal.2.1, hfinal.2.2]
    rw [hempty, List.append_nil] at hload
    simpa [load, initState] using hload
  · intro mask s hinv
    exact pullOnce_none_iff w f mask s hw hinv

/-- Claim C6, witness: three inputs, two workers, the oracle always
completing the first in-flight task. -/
theorem C6_pool_bounded_unordered_witness :
    (pullN 2 (fun n => n * 10) (fun _ => [true]) 4 0
      (initState [1, 2, 3])).finished = true ∧
    (pullN 2 (fun n => n * 10) (fun _ => [true]) 4 0
      (initState [1, 2, 3])).yielded.Perm ([1, 2, 3].map (fun n => n * 10)) ∧
    ((pullOnce 2 (fun n : Nat => n * 10) []
        (initState ([] : List Nat) : GenState Nat Nat)).1 = none ↔
      ((initState ([] : List Nat) : GenState Nat Nat).remaining = [] ∧
        (initState ([] : List Nat) : GenState Nat Nat).pending = [] ∧
        (initState ([] : List Nat) : GenState Nat Nat).donebuf = [])) :=
  have h := C6_pool_bounded_unordered 2 (fun n => n * 10)
    (fun _ => [true]) [1, 2, 3] (by decide)
  ⟨h.2.2.1, h.2.2.2.1,
    h.2.2.2.2.2.2.2 [] (initState ([] : List Nat) : GenState Nat Nat)
      (by simp [SInv, initState])⟩

/-! ## Claim C7: early consumer stop starves the source but loses no task -/

/-- Claim C7.  However many pulls n the consumer makes before stopping, the
source has only ever been consumed up to a prefix of length k; the rest of
the source is untouched (so no task beyond it is ever submitted); k never
exceeds the number of results the consumer took plus the worker bound (only
the bounded in-flight window is submitted ahead of consumption); and the
results of the k submitted tasks are exactly accounted for: each was either
yielded or is still intact in the in-flight set or the wait-batch buffer,
i.e. stopping early cancels or preempts no already-submitted task. -/
theorem C7_pool_early_stop {α β : Type} (w : Nat) (f : α → β)
    (sched : Nat → List Bool) (inputs : List α) (n : Nat) (_hw : 1 ≤ w) :
    ∃ k, k ≤ inputs.length ∧
      (pullN w f sched n 0 (initState inputs)).final.remaining =
        inputs.drop k ∧
      k ≤ (pullN w f sched n 0 (initState inputs)).yielded.length + w ∧
      ((pullN w f sched n 0 (initState inputs)).yielded ++
        (pullN w f sched n 0 (initState inputs)).final.pending ++
        (pullN w f sched n 0 (initState inputs)).final.donebuf).Perm
        ((inputs.take k).map f) := by
  have hinv0 : SInv w (initState inputs : GenState α β) := by
    simp [SInv, initState]
  rcases pullN_suffix w f sched n 0 (initState inputs) with ⟨j, hj⟩
  rw [show (initState inputs : GenState α β).remaining = inputs from rfl]
    at hj
  have hdrop : inputs.drop (min j inputs.length) = inputs.drop j := by
    rcases Nat.le_total j inputs.length with hle | hge
    · rw [Nat.min_eq_left hle]
    · rw [Nat.min_eq_right hge, List.drop_eq_nil_of_le hge,
        List.drop_eq_nil_of_le (le_refl _)]
  have hfinv := pullN_inv w f sched n 0 (initState inputs) hinv0
  have hload := pullN_load w f sched n 0 (initState inputs)
  have hperm : ((pullN w f sched n 0 (initState inputs)).yielded ++
      (pullN w f sched n 0 (initState inputs)).final.pending ++
      (pullN w f sched n 0 (initState inputs)).final.donebuf).Perm
      ((inputs.take (min j inputs.length)).map f) := by
    have hl2 : load f (pullN w f sched n 0 (initState inputs)).final =
        (pullN w f sched n 0 (initState inputs)).final.pending ++
          (pullN w f sched n 0 (initState inputs)).final.donebuf ++
          (inputs.drop (min j inputs.length)).map f := by
      rw [load, hj, ← hdrop]
    rw [hl2] at hload
    have hinit : load f (initState inputs : GenState α β) =
        (inputs.take (min j inputs.length)).map f ++
          (inputs.drop (min j inputs.length)).map f := by
      simp [load, initState, ← List.map_append, List.take_append_drop]
    rw [hinit] at hload
    refine (List.perm_append_right_iff
      ((inputs.drop (min j inputs.length)).map f)).mp ?_
    simpa [List.append_assoc] using hload
  have hlen := hperm.length_eq
  simp only [List.length_append, List.length_map, List.length_take] at hlen
  have hPD := hfinv.1
  refine ⟨min j inputs.length, Nat.min_le_right _ _, ?_, ?_, hperm⟩
  · rw [hj, ← hdrop]
  · omega

/-- Claim C7, witness: five inputs, two workers, a consumer that stops
after a single pull. -/
theorem C7_pool_early_stop_witness :
    ∃ k, k ≤ ([1, 2, 3, 4, 5] : List Nat).length ∧
      (pullN 2 (fun n => n + 100) (fun _ => [true]) 1 0
        (initState [1, 2, 3, 4, 5])).final.remaining =
          [1, 2, 3, 4, 5].drop k ∧
      k ≤ (pullN 2 (fun n => n + 100) (fun _ => [true]) 1 0
        (initState [1, 2, 3, 4, 5])).yielded.length + 2 ∧
      ((pullN 2 (fun n => n + 100) (fun _ => [true]) 1 0
          (initState [1, 2, 3, 4, 5])).yielded ++
        (pullN 2 (fun n => n + 100) (fun _ => [true]) 1 0
          (initState [1, 2, 3, 4, 5])).final.pending ++
        (pullN 2 (fun n => n + 100) (fun _ => [true]) 1 0
          (initState [1, 2, 3, 4, 5])).final.donebuf).Perm
        (([1, 2, 3, 4, 5].take k).map (fun n => n + 100)) :=
  C7_pool_early_stop 2 (fun n => n + 100) (fun _ => [true]) [1, 2, 3, 4, 5]
    1 (by decide)

/-! ## Hook dispatch (core updater; exercised by test_reader_hooks.py) -/

/-- Entry classification of the reconciler: new, modified or unchanged. -/
inductive EntryStatus
  | NEW
  | MODIFIED
  | UNCHANGED
deriving Repr, DecidableEq

/-- Registered per-feed hooks, each list in registration order; each call is
modelled by its outcome (ok or the exception value it raises). -/
structure Hooks (E : Type) where
  before_feed : List (String → Except E Unit)
  after_entry : List (String → String → EntryStatus → Except E Unit)
  after_feed : List (String → Except E Unit)

/-- Running a sequence of hook calls in order: the first raised exception
propagates and the calls after it are never reached. -/
def runHookList : List (Except E Unit) → Except E Unit
  | [] => .ok ()
  | .error e :: _ => .error e
  | .ok _ :: rest => runHookList rest

/-- Result of one feed's update in a batch: either the feed updated, or the
feed's recorded error wrapping the exception that a hook raised as cause. -/
inductive FeedUpdateResult (E : Type)
  | updated
  | hookError (cause : E)
deriving Repr, DecidableEq

/-- Full hook call sequence of one feed's update, in dispatch order:
before_feed hooks, then the after_entry hooks of every NEW/MODIFIED entry in
feed order, then after_feed hooks. -/
def feedHookCalls (hooks : Hooks E) (url : String)
    (entries : List (String × EntryStatus)) : List (Except E Unit) :=
  hooks.before_feed.map (fun h => h url) ++
    entries.flatMap (fun p => hooks.after_entry.map (fun h => h url p.1 p.2)) ++
    hooks.after_feed.map (fun h => h url)

/-- Modelled from the spec: the per-feed part of the updater is not in the
source snapshot (only test_update_hook_unexpected_exception exercises it).
Per the spec, before_feed hooks run in registration order, then after_entry
hooks for each NEW/MODIFIED entry in feed order, then after_feed hooks; the
first exception aborts that feed's remaining processing and is recorded as
the feed's error with the raising exception as cause. -/
def update_one_feed (hooks : Hooks E) (url : String)
    (entries : List (String × EntryStatus)) : FeedUpdateResult E :=
  match runHookList (hooks.before_feed.map (fun h => h url)) with
  | .error e => .hookError e
  | .ok _ =>
    match runHookList (entries.flatMap
        (fun p => hooks.after_entry.map (fun h => h url p.1 p.2))) with
    | .error e => .hookError e
    | .ok _ =>
      match runHookList (hooks.after_feed.map (fun h => h url)) with
      | .error e => .hookError e
      | .ok _ => .updated

/-- Modelled from the spec: update_feeds over a batch produces one result
per feed, each feed's update computed from that feed's data alone. -/
def update_feeds (hooks : Hooks E)
    (feeds : List (String × List (String × EntryStatus))) :
    List (String × FeedUpdateResult E) :=
  feeds.map (fun p => (p.1, update_one_feed hooks p.1 p.2))

theorem runHookList_append (xs ys : List (Except E Unit)) :
    runHookList (xs ++ ys) =
      match runHookList xs with
      | .error e => .error e
      | .ok _ => runHookList ys := by
  induction xs with
  | nil => simp [runHookList]
  | cons x rest ih =>
    cases x with
    | error e => simp [runHookList]
    | ok u => simpa [runHookList] using ih

/-! ## Claim C2: hook failures are isolated to their feed -/

/-- Claim C2.  A batch update yields exactly one result per feed, in batch
order; each feed's result is a function of that feed's own hook sequence
alone, so an exception in one feed's hooks leaves every other feed's result
the one it would have had anyway; a feed whose concatenated
before_feed/after_entry/after_feed call sequence raises has exactly the
first raised exception recorded as its error's cause, everything after the
raising hook being skipped; and a feed whose hooks all return completes as
updated. -/
theorem C2_hook_failure_isolation {E : Type} :
    (∀ (hooks : Hooks E) (feeds : List (String × List (String × EntryStatus))),
      (update_feeds hooks feeds).map Prod.fst = feeds.map Prod.fst) ∧
    (∀ (hooks : Hooks E) (fs1 : List (String × List (String × EntryStatus)))
        (u : String) (es : List (String × EntryStatus)) fs2,
      update_feeds hooks (fs1 ++ (u, es) :: fs2) =
        update_feeds hooks fs1 ++
          (u, update_one_feed hooks u es) :: update_feeds hooks fs2) ∧
    (∀ (hooks : Hooks E) (url : String)
        (entries : List (String × EntryStatus)),
      update_one_feed hooks url entries =
        (match runHookList (feedHookCalls hooks url entries) with
          | .error e => .hookError e
          | .ok _ => .updated)) ∧
    (∀ (xs : List (Except E Unit)) (e : E) ys,
      runHookList xs = .ok () →
      runHookList (xs ++ .error e :: ys) = .error e) := by
  refine ⟨?_, ?_, ?_, ?_⟩
  · intro hooks feeds
    simp [update_feeds]
  · intro hooks fs1 u es fs2
    simp [update_feeds]
  · intro hooks url entries
    rw [update_one_feed, feedHookCalls, runHookList_append, runHookList_append]
    cases runHookList (hooks.before_feed.map (fun h => h url)) with
    | error e => rfl
    | ok _ =>
      cases runHookList (entries.flatMap
          (fun p => hooks.after_entry.map (fun h => h url p.1 p.2))) with
      | error e => rfl
      | ok _ =>
        cases runHookList (hooks.after_feed.map (fun h => h url)) with
        | error e => rfl
        | ok _ => rfl
  · intro xs e ys hxs
    rw [runHookList_append, hxs]
    rfl

/-- Hooks used by the C2 witness: the single before_feed hook raises only
on feed 1. -/
def witHooks : Hooks String :=
  { before_feed := [fun u => if u = "1" then .error "boom" else .ok ()],
    after_entry := [], after_feed := [] }

/-- Claim C2, witness: the isolation theorem applied to a two-feed batch in
which only feed 1's hook raises, and to a hook sequence whose prefix
succeeds. -/
theorem C2_hook_failure_isolation_witness :
    (update_feeds witHooks [("1", []), ("2", [])]).map Prod.fst =
      [("1", ([] : List (String × EntryStatus))),
        ("2", [])].map Prod.fst ∧
    update_feeds witHooks [("1", []), ("2", [])] =
      update_feeds witHooks [] ++
        ("1", update_one_feed witHooks "1" []) ::
          update_feeds witHooks [("2", [])] ∧
    runHookList ([Except.ok ()] ++ Except.error "boom" :: []) =
      Except.error "boom" :=
  ⟨C2_hook_failure_isolation.1 witHooks [("1", []), ("2", [])],
    C2_hook_failure_isolation.2.1 witHooks [] "1" [] [("2", [])],
    C2_hook_failure_isolation.2.2.2 [Except.ok ()] "boom" [] rfl⟩

/-! ## Update intents (core/types.py) and claim C3 -/

/-- Update-relevant snapshot of an existing entry from Storage
(core/types.py: EntryForUpdate); it carries only the stored updated date. -/
structure EntryForUpdate where
  updated : Time
deriving Repr, DecidableEq

/-- Data to be passed to Storage when updating an entry (core/types.py:
EntryUpdateIntent).  Per its declaration, first_updated_epoch is the time at
the start of updating this batch of feeds, and None if the entry already
exists. -/
structure EntryUpdateIntent where
  url : String
  entry : Entry
  last_updated : Time
  first_updated_epoch : Option Time
  feed_order : Nat
deriving Repr, DecidableEq

/-- Modelled from the spec: the updater that classifies a parsed entry
against its stored snapshot is not part of the source snapshot.  An absent
prior is NEW, a prior with stored updated strictly below the parsed updated
is MODIFIED, anything else UNCHANGED; a stale feed forces MODIFIED. -/
def classifyEntry (stale : Bool) (prior : Option EntryForUpdate)
    (parsed_updated : Time) : EntryStatus :=
  match prior with
  | none => .NEW
  | some p =>
    if stale then .MODIFIED
    else if p.updated < parsed_updated then .MODIFIED
    else .UNCHANGED

/-- Modelled from the spec: the updater builds the EntryUpdateIntent of a
NEW or MODIFIED entry; first_updated_epoch is the batch start time for a
brand-new entry and — per the EntryUpdateIntent declaration in
core/types.py, and necessarily so, because the EntryForUpdate snapshot
carries no stored epoch to copy — None for an entry that already exists. -/
def make_entry_update_intent (url : String) (entry : Entry)
    (last_updated batch_start : Time) (prior : Option EntryForUpdate)
    (feed_order : Nat) : EntryUpdateIntent :=
  { url := url, entry := entry, last_updated := last_updated,
    first_updated_epoch := if prior.isSome then none else some batch_start,
    feed_order := feed_order }

/-- Claim C3, counterexample.  An entry that existed before (stored updated
5, stored first_updated_epoch 5) and is reclassified MODIFIED by a parsed
updated of 9 gets an intent whose first_updated_epoch is None — not the
previously stored value 5 the claim requires. -/
theorem C3_first_updated_epoch_counterexample :
    classifyEntry false (some ⟨5⟩) 9 = EntryStatus.MODIFIED ∧
    (make_entry_update_intent "feed" { id := "e", updated := some 9 } 7 3
      (some ⟨5⟩) 0).first_updated_epoch = none ∧
    (none : Option Time) ≠ some 5 := by
  refine ⟨rfl, rfl, by decide⟩

/-- Claim C3 (amended).  For every EntryUpdateIntent emitted during
reconciliation, first_updated_epoch equals the current batch's start time
when the entry is brand new and is None when the entry existed before the
update (Storage preserving the already-stored value in that case, since the
EntryForUpdate snapshot does not carry it); in particular an entry whose
parsed updated strictly exceeds the stored value is classified MODIFIED and
its intent carries first_updated_epoch None, never a fresh epoch. -/
theorem C3_first_updated_epoch :
    (∀ (url : String) (entry : Entry) (lu bs : Time) (ord : Nat),
      (make_entry_update_intent url entry lu bs none ord).first_updated_epoch =
        some bs) ∧
    (∀ (url : String) (entry : Entry) (lu bs : Time)
        (p : EntryForUpdate) (ord : Nat),
      (make_entry_update_intent url entry lu bs (some p)
        ord).first_updated_epoch = none) ∧
    (∀ (p : EntryForUpdate) (t : Time), p.updated < t →
      classifyEntry false (some p) t = EntryStatus.MODIFIED) := by
  refine ⟨fun url entry lu bs ord => rfl,
    fun url entry lu bs p ord => rfl, fun p t h => ?_⟩
  simp [classifyEntry, h]

/-- Claim C3, witness: the amended theorem applied to a brand-new entry and
to an existing entry modified from stored updated 5 to parsed updated 9. -/
theorem C3_first_updated_epoch_witness :
    (make_entry_update_intent "f" { id := "a", updated := some 9 } 7 3 none
      0).first_updated_epoch = some 3 ∧
    (make_entry_update_intent "f" { id := "a", updated := some 9 } 7 3
      (some ⟨5⟩) 0).first_updated_epoch = none ∧
    classifyEntry false (some ⟨5⟩) 9 = EntryStatus.MODIFIED :=
  ⟨C3_first_updated_epoch.1 "f" { id := "a", updated := some 9 } 7 3 0,
    C3_first_updated_epoch.2.1 "f" { id := "a", updated := some 9 } 7 3 ⟨5⟩ 0,
    C3_first_updated_epoch.2.2 ⟨5⟩ 9 (by decide)⟩

end Reader
